import Mathlib

/-!
Verification of the YouTube downloader chat bot (src/main.py) against its
natural-language specification.

Strings from the Python source are modelled as `List Char`; the Python
operators used by the source (`in` for substring containment, `str.split`
indexing, `str.startswith`, f-string concatenation) are embedded as
executable Lean functions below.  Times (`time.time()`) are modelled as
rationals; `int(time.time())` is floor (Python truncation, equal to floor
for the non-negative values produced by `time.time()`).
-/

namespace Mine

/-! ### String primitives (Python `startswith`, `in`, `split`) -/

/-- Boolean test that the first list is a prefix of the second
(Python `str.startswith`). -/
def isPrefOf : List Char → List Char → Bool
  | [], _ => true
  | _ :: _, [] => false
  | a :: as, b :: bs => decide (a = b) && isPrefOf as bs

/-- Boolean substring containment (Python `pat in s`). -/
def containsSub (pat : List Char) : List Char → Bool
  | [] => pat.isEmpty
  | c :: rest => isPrefOf pat (c :: rest) || containsSub pat rest

/-- Python `s.split(sep)[0]`: the part of `s` before the first occurrence of
`sep` (all of `s` when `sep` does not occur). -/
def firstChunk (sep : Char) : List Char → List Char
  | [] => []
  | c :: rest => if c = sep then [] else c :: firstChunk sep rest

/-- Python `s.split(sep)[-1]`: the part of `s` after the last occurrence of
`sep` (all of `s` when `sep` does not occur). -/
def lastChunk (sep : Char) (l : List Char) : List Char :=
  (firstChunk sep l.reverse).reverse

/-- The part of the list strictly after the first occurrence of `sep`. -/
def afterFirst (sep : Char) : List Char → List Char
  | [] => []
  | c :: rest => if c = sep then rest else afterFirst sep rest

/-- Python `s.split(sep)[1]` for strings guaranteed to contain `sep`:
the chunk between the first occurrence of `sep` and the following one.
(When `sep` does not occur at all the source raises `IndexError`; the model
returns `[]`, but every call site guards with a check that makes `sep`
present.) -/
def secondChunk (sep : Char) (l : List Char) : List Char :=
  firstChunk sep (afterFirst sep l)

/-! ### URL validation and normalization (`is_valid_youtube_url`,
`normalize_youtube_url`, src/main.py lines 107-114) -/

/-- The short-host marker string checked by the source. -/
def shortHost : List Char := "youtu.be".toList

/-- The long-form URL stem produced by the source f-string. -/
def longStem : List Char := "https://www.youtube.com/watch?v=".toList

/-- Source `is_valid_youtube_url`: `any(domain in url for domain in
["youtube.com", "youtu.be"])`. -/
def is_valid_youtube_url (url : List Char) : Bool :=
  containsSub "youtube.com".toList url || containsSub shortHost url

/-- Source `normalize_youtube_url`: if `"youtu.be" in url` then rebuild the
long form from `url.split("/")[-1].split("?")[0]`, else `url.split("&")[0]`. -/
def normalize_youtube_url (url : List Char) : List Char :=
  if containsSub shortHost url then
    longStem ++ firstChunk '?' (lastChunk '/' url)
  else
    firstChunk '&' url

/-- Sanity check from the spec scenario: the short link normalizes to the
canonical long form with the tracking parameter stripped. -/
theorem normalize_scenario :
    normalize_youtube_url "https://youtu.be/abc123?feature=share".toList
      = "https://www.youtube.com/watch?v=abc123".toList := by decide

/-! ### Lemmas about the string primitives -/

theorem isPrefOf_append_right {p x : List Char} (t : List Char)
    (h : isPrefOf p x = true) : isPrefOf p (x ++ t) = true := by
  induction p generalizing x with
  | nil => simp [isPrefOf]
  | cons a as ih =>
    cases x with
    | nil => simp [isPrefOf] at h
    | cons b bs =>
      simp only [isPrefOf, Bool.and_eq_true, decide_eq_true_eq] at h ⊢
      exact ⟨h.1, ih h.2⟩

theorem containsSub_of_isPrefOf {pat l : List Char} (h : isPrefOf pat l = true) :
    containsSub pat l = true := by
  cases l with
  | nil =>
    cases pat with
    | nil => rfl
    | cons a as => simp [isPrefOf] at h
  | cons c rest => simp [containsSub, h]

theorem containsSub_append_right {pat x : List Char} (t : List Char)
    (h : containsSub pat x = true) : containsSub pat (x ++ t) = true := by
  induction x with
  | nil =>
    simp only [containsSub, List.isEmpty_iff] at h
    subst h
    cases t with
    | nil => rfl
    | cons c rest => simp [containsSub, isPrefOf]
  | cons c rest ih =>
    simp only [containsSub, Bool.or_eq_true] at h
    rcases h with h | h
    · have := isPrefOf_append_right (x := c :: rest) t h
      simpa [containsSub] using Or.inl this
    · simpa [containsSub] using Or.inr (ih h)

/-- Decomposition of a prefix of an append: either `pat` already fits inside
`a`, or `pat` extends past `a`, in which case its first `a.length` characters
are exactly `a` and the rest is a prefix of `b`. -/
theorem prefSplit : ∀ (a pat b : List Char), isPrefOf pat (a ++ b) = true →
    isPrefOf pat a = true ∨
      (a.length < pat.length ∧ pat.take a.length = a ∧
        isPrefOf (pat.drop a.length) b = true)
  | [], pat, b, h => by
    cases pat with
    | nil => exact Or.inl rfl
    | cons p ps => exact Or.inr (by simpa using h)
  | c :: as, pat, b, h => by
    cases pat with
    | nil => exact Or.inl rfl
    | cons p ps =>
      simp only [List.cons_append, isPrefOf, Bool.and_eq_true,
        decide_eq_true_eq] at h
      rcases prefSplit as ps b h.2 with h1 | ⟨hlen, htake, hdrop⟩
      · exact Or.inl (by simp [isPrefOf, h.1, h1])
      · refine Or.inr ⟨by simpa using Nat.succ_lt_succ hlen, ?_, ?_⟩
        · simp [List.take, htake, h.1]
        · simpa using hdrop

/-- An occurrence of `pat` inside `a ++ b` lies inside `a`, lies inside `b`,
or straddles the boundary: a proper nonempty beginning of `pat` is a suffix
of `a` and the rest of `pat` is a prefix of `b`. -/
theorem containsSub_append_cases {pat : List Char} : ∀ {a b : List Char},
    containsSub pat (a ++ b) = true →
    containsSub pat a = true ∨ containsSub pat b = true ∨
      ∃ i, 0 < i ∧ i < pat.length ∧ (∃ s, s ++ pat.take i = a) ∧
        isPrefOf (pat.drop i) b = true
  | [], b, h => Or.inr (Or.inl h)
  | c :: as, b, h => by
    rw [List.cons_append] at h
    have h' : isPrefOf pat (c :: as ++ b) = true ∨
        containsSub pat (as ++ b) = true := by
      simpa [containsSub, Bool.or_eq_true] using h
    rcases h' with hp | hc
    · rcases prefSplit (c :: as) pat b (by simpa using hp) with h1 | ⟨hlen, htake, hdrop⟩
      · exact Or.inl (containsSub_of_isPrefOf h1)
      · refine Or.inr (Or.inr ⟨(c :: as).length, by simp, hlen, ⟨[], by simpa using htake⟩, hdrop⟩)
    · rcases containsSub_append_cases hc with h1 | h1 | ⟨i, hi0, hil, ⟨s, hs⟩, hdrop⟩
      · exact Or.inl (by simp [containsSub, h1])
      · exact Or.inr (Or.inl h1)
      · exact Or.inr (Or.inr ⟨i, hi0, hil, ⟨c :: s, by simp [hs]⟩, hdrop⟩)

/-- If `x` is a suffix of `a` (witnessed by `s ++ x = a`) then `x` is
recovered by dropping the first `a.length - x.length` characters of `a`. -/
theorem dropOfSuf {s x a : List Char} (h : s ++ x = a) :
    a.drop (a.length - x.length) = x := by
  subst h
  have hl : (s ++ x).length - x.length = s.length := by
    simp [List.length_append]
  rw [hl, List.drop_left]

theorem firstChunk_append (sep : Char) :
    ∀ l : List Char, ∃ t, firstChunk sep l ++ t = l
  | [] => ⟨[], rfl⟩
  | c :: rest => by
    by_cases h : c = sep
    · exact ⟨c :: rest, by simp [firstChunk, h]⟩
    · obtain ⟨t, ht⟩ := firstChunk_append sep rest
      exact ⟨t, by simp [firstChunk, h, ht]⟩

theorem sep_not_mem_firstChunk (sep : Char) :
    ∀ l : List Char, sep ∉ firstChunk sep l
  | [] => by simp [firstChunk]
  | c :: rest => by
    by_cases h : c = sep
    · simp [firstChunk, h]
    · intro hm
      rw [firstChunk, if_neg h] at hm
      rcases List.mem_cons.1 hm with he | hm2
      · exact h he.symm
      · exact sep_not_mem_firstChunk sep rest hm2

theorem firstChunk_of_not_mem {sep : Char} :
    ∀ {l : List Char}, sep ∉ l → firstChunk sep l = l
  | [], _ => rfl
  | c :: rest, h => by
    have hc : ¬c = sep := fun he => h (he ▸ List.mem_cons_self c rest)
    have hr : sep ∉ rest := fun hm => h (List.mem_cons_of_mem c hm)
    simp [firstChunk, hc, firstChunk_of_not_mem hr]

/-! ### Claim C4: idempotence of URL normalization -/

/-- Claim C4, counterexample: normalization is not idempotent.  For the
input `"youtu.be"` the first pass yields
`"https://www.youtube.com/watch?v=youtu.be"`, which still contains the
substring `"youtu.be"`, so the second pass extracts the id `"watch"` and
yields `"https://www.youtube.com/watch?v=watch"`. -/
theorem c4_counterexample :
    normalize_youtube_url (normalize_youtube_url "youtu.be".toList)
      ≠ normalize_youtube_url "youtu.be".toList ∧
    normalize_youtube_url "youtu.be".toList
      = "https://www.youtube.com/watch?v=youtu.be".toList ∧
    normalize_youtube_url (normalize_youtube_url "youtu.be".toList)
      = "https://www.youtube.com/watch?v=watch".toList := by decide

/-- Claim C4 (amended): `normalize` is idempotent for every URL that does
not contain the substring `"youtu.be"`, and for every short-link URL whose
extracted video id (the last `'/'`-separated segment truncated at the first
`'?'`) contains neither the substring `"youtu.be"` nor the character `'&'`.
On other inputs it can differ. -/
theorem c4_normalize_idem_amended (u : List Char)
    (h : containsSub shortHost u = false ∨
      (containsSub shortHost (firstChunk '?' (lastChunk '/' u)) = false ∧
        '&' ∉ firstChunk '?' (lastChunk '/' u))) :
    normalize_youtube_url (normalize_youtube_url u) = normalize_youtube_url u := by
  by_cases hc : containsSub shortHost u = true
  · have hvid : containsSub shortHost (firstChunk '?' (lastChunk '/' u)) = false ∧
        '&' ∉ firstChunk '?' (lastChunk '/' u) := by
      rcases h with h | h
      · rw [hc] at h; cases h
      · exact h
    have h1 : normalize_youtube_url u
        = longStem ++ firstChunk '?' (lastChunk '/' u) := by
      rw [normalize_youtube_url, if_pos hc]
    have hno : containsSub shortHost
        (longStem ++ firstChunk '?' (lastChunk '/' u)) = false := by
      by_contra hcc
      have hcc' : containsSub shortHost
          (longStem ++ firstChunk '?' (lastChunk '/' u)) = true := by
        revert hcc
        cases containsSub shortHost (longStem ++ firstChunk '?' (lastChunk '/' u)) <;> simp
      rcases containsSub_append_cases hcc' with h2 | h2 | ⟨i, hi0, hil, ⟨s, hs⟩, _⟩
      · have hls : containsSub shortHost longStem = false := by decide
        rw [hls] at h2; cases h2
      · rw [hvid.1] at h2; cases h2
      · have hlen : (shortHost.take i).length = i := by
          rw [List.length_take]
          exact min_eq_left (le_of_lt hil)
        have hdrop := dropOfSuf hs
        rw [hlen] at hdrop
        have hfalse : ∀ j, j < shortHost.length → 0 < j →
            longStem.drop (longStem.length - j) ≠ shortHost.take j := by decide
        exact hfalse i hil hi0 hdrop
    have hamp : '&' ∉ longStem ++ firstChunk '?' (lastChunk '/' u) := by
      intro hm
      rcases List.mem_append.1 hm with hm | hm
      · exact (by decide : '&' ∉ longStem) hm
      · exact hvid.2 hm
    rw [h1, normalize_youtube_url, if_neg (by simp [hno]),
      firstChunk_of_not_mem hamp]
  · have hcf : containsSub shortHost u = false := by
      revert hc; cases containsSub shortHost u <;> simp
    have h1 : normalize_youtube_url u = firstChunk '&' u := by
      rw [normalize_youtube_url, if_neg (by simp [hcf])]
    obtain ⟨t, ht⟩ := firstChunk_append '&' u
    have hno : containsSub shortHost (firstChunk '&' u) = false := by
      by_contra hcc
      have hcc' : containsSub shortHost (firstChunk '&' u) = true := by
        revert hcc; cases containsSub shortHost (firstChunk '&' u) <;> simp
      have hext := containsSub_append_right t hcc'
      rw [ht, hcf] at hext; cases hext
    rw [h1, normalize_youtube_url, if_neg (by simp [hno]),
      firstChunk_of_not_mem (sep_not_mem_firstChunk '&' u)]

/-- Claim C4, witness: the amended idempotence theorem applied to the
spec scenario URL `https://youtu.be/abc123?feature=share`, whose extracted
id `abc123` is benign. -/
theorem c4_witness :
    (containsSub shortHost
        (firstChunk '?' (lastChunk '/' "https://youtu.be/abc123?feature=share".toList)) = false ∧
      '&' ∉ firstChunk '?' (lastChunk '/' "https://youtu.be/abc123?feature=share".toList)) ∧
    normalize_youtube_url (normalize_youtube_url "https://youtu.be/abc123?feature=share".toList)
      = normalize_youtube_url "https://youtu.be/abc123?feature=share".toList :=
  ⟨by decide, c4_normalize_idem_amended "https://youtu.be/abc123?feature=share".toList
    (Or.inr (by decide))⟩

/-! ### Session store data model (src/main.py lines 34-39, 87-92) -/

/-- Source constant `MAX_TELEGRAM_FILE_SIZE = 2097152000` (2GB in bytes). -/
def MAX_TELEGRAM_FILE_SIZE : Nat := 2097152000

/-- Source constant `CACHE_EXPIRY = 3600` (seconds). -/
def CACHE_EXPIRY : ℚ := 3600

/-- One value of the `user_data` dictionary: the session entry stored by
`handle_message` (url, formats mapping height → format id, timestamp). -/
structure Entry where
  url : List Char
  formats : List (Nat × List Char)
  timestamp : ℚ
deriving DecidableEq

/-- The keys of a store (the dictionary invariant is that they are
pairwise distinct). -/
def keysOf (store : List (Nat × Entry)) : List Nat := store.map Prod.fst

/-- Python `user_data[user_id]` (and the `user_id in user_data` test via
`Option.isSome`): the binding for the key, unique when keys are nodup. -/
def storeGet : List (Nat × Entry) → Nat → Option Entry
  | [], _ => none
  | p :: rest, user => if p.1 = user then some p.2 else storeGet rest user

theorem storeGet_eq_none_of_not_mem_keys :
    ∀ {s : List (Nat × Entry)} {u : Nat}, u ∉ keysOf s → storeGet s u = none
  | [], _, _ => rfl
  | q :: s, u, h => by
    have hq : ¬q.1 = u := fun he => h (he ▸ List.mem_cons_self q.1 (keysOf s))
    have hs : u ∉ keysOf s := fun hm => h (List.mem_cons_of_mem q.1 hm)
    simp [storeGet, hq, storeGet_eq_none_of_not_mem_keys hs]

theorem key_inj {s : List (Nat × Entry)} (h : (keysOf s).Nodup) :
    ∀ {p q : Nat × Entry}, p ∈ s → q ∈ s → p.1 = q.1 → p = q := by
  induction s with
  | nil => intro p q hp; cases hp
  | cons a s ih =>
    have ha : a.1 ∉ keysOf s := (List.nodup_cons.1 h).1
    have hs : (keysOf s).Nodup := (List.nodup_cons.1 h).2
    intro p q hp hq hk
    rcases List.mem_cons.1 hp with hp | hp <;> rcases List.mem_cons.1 hq with hq | hq
    · rw [hp, hq]
    · exfalso
      apply ha
      rw [hp] at hk
      rw [hk]
      exact List.mem_map_of_mem Prod.fst hq
    · exfalso
      apply ha
      rw [hq] at hk
      rw [← hk]
      exact List.mem_map_of_mem Prod.fst hp
    · exact ih hs hp hq hk

/-! ### Button callback handler (`button_handler`, src/main.py lines 53-70) -/

/-- Outcome of one `button_handler` invocation.  `startDownload url quality`
stands for the present-entry branch: the handler replies
"⏳ Downloading in {quality}p... Please wait." and then calls
`download_video(video_info["url"], quality, query)`. -/
inductive BRes where
  | linkPrompt
  | startDownload (url : List Char) (quality : List Char)
  | sessionExpired
  | noAction
deriving DecidableEq

/-- The callback payload marker tested with `query.data.startswith("quality_")`. -/
def qualityTag : List Char := "quality_".toList

/-- Source `button_handler` for a callback from chat `user` carrying
`payload`, given the current `user_data` store.  Mirrors the source: the
`enter_link` test, then the `quality_` test with `user_id in user_data`,
the quality parsed as `query.data.split("_")[1]`.  Note that the stored
timestamp is never consulted. -/
def button_handler (store : List (Nat × Entry)) (user : Nat)
    (payload : List Char) : BRes :=
  if payload = "enter_link".toList then .linkPrompt
  else if isPrefOf qualityTag payload then
    match storeGet store user with
    | some e => .startDownload e.url (secondChunk '_' payload)
    | none => .sessionExpired
  else .noAction

/-! ### Periodic sweep (`cleanup_old_data`, src/main.py lines 189-202) -/

/-- The `expired_users` list comprehension of `cleanup_old_data`: keys of
entries whose age at `now` strictly exceeds `CACHE_EXPIRY`. -/
def expiredKeys (now : ℚ) (store : List (Nat × Entry)) : List Nat :=
  (store.filter fun p => decide (now - p.2.timestamp > CACHE_EXPIRY)).map Prod.fst

/-- One pass of the `cleanup_old_data` loop body: compute `expired_users`,
then `user_data.pop(user_id, None)` for each. -/
def cleanup_pass (now : ℚ) (store : List (Nat × Entry)) : List (Nat × Entry) :=
  (expiredKeys now store).foldl
    (fun s u => s.eraseP fun p => decide (p.1 = u)) store

theorem keysOf_filter_nodup {s : List (Nat × Entry)} (h : (keysOf s).Nodup)
    (g : Nat × Entry → Bool) : (keysOf (s.filter g)).Nodup :=
  List.Nodup.sublist (List.Sublist.map Prod.fst (List.filter_sublist s)) h

theorem eraseP_key_eq_filter {u : Nat} :
    ∀ {s : List (Nat × Entry)}, (keysOf s).Nodup →
    (s.eraseP fun p => decide (p.1 = u)) = s.filter fun p => decide (¬p.1 = u)
  | [], _ => rfl
  | q :: s, h => by
    have ha : q.1 ∉ keysOf s := (List.nodup_cons.1 h).1
    have hs : (keysOf s).Nodup := (List.nodup_cons.1 h).2
    by_cases hq : q.1 = u
    · have hself : (s.filter fun p => decide (¬p.1 = u)) = s :=
        List.filter_eq_self.2 fun p hp => by
          have hne : p.1 ≠ u := by
            intro he
            apply ha
            rw [hq, ← he]
            exact List.mem_map_of_mem Prod.fst hp
          simpa using hne
      rw [List.eraseP_cons_of_pos (by simpa using hq),
        List.filter_cons_of_neg (by simpa using hq), hself]
    · rw [List.eraseP_cons_of_neg (by simpa using hq),
        List.filter_cons_of_pos (by simpa using hq), eraseP_key_eq_filter hs]

theorem foldl_erase_eq_filter :
    ∀ (ks : List Nat) (s : List (Nat × Entry)), (keysOf s).Nodup →
    ks.foldl (fun s u => s.eraseP fun p => decide (p.1 = u)) s
      = s.filter fun p => decide (p.1 ∉ ks)
  | [], s, _ => by
    rw [List.foldl_nil]
    exact (List.filter_eq_self.2 fun p _ => by simp).symm
  | k :: ks, s, h => by
    rw [List.foldl_cons, eraseP_key_eq_filter h,
      foldl_erase_eq_filter ks _ (keysOf_filter_nodup h _), List.filter_filter]
    exact List.filter_congr fun p _ => by
      simp [List.mem_cons, not_or, Bool.and_comm]

theorem storeGet_filter_bind (now : ℚ) (u : Nat) (bad : List Nat) :
    ∀ (s : List (Nat × Entry)), (keysOf s).Nodup →
    (∀ p ∈ s, p.1 ∈ bad ↔ now - p.2.timestamp > CACHE_EXPIRY) →
    storeGet (s.filter fun p => decide (p.1 ∉ bad)) u
      = (storeGet s u).bind
          fun e => if now - e.timestamp > CACHE_EXPIRY then none else some e
  | [], _, _ => rfl
  | q :: s, h, hbad => by
    have ha : q.1 ∉ keysOf s := (List.nodup_cons.1 h).1
    have hs : (keysOf s).Nodup := (List.nodup_cons.1 h).2
    have hrest := storeGet_filter_bind now u bad s hs
      fun p hp => hbad p (List.mem_cons_of_mem q hp)
    have hbq := hbad q (List.mem_cons_self q s)
    by_cases hq : q.1 = u
    · by_cases hexp : now - q.2.timestamp > CACHE_EXPIRY
      · have hin : q.1 ∈ bad := hbq.2 hexp
        have hnone : storeGet (s.filter fun p => decide (p.1 ∉ bad)) u =
            none := by
          apply storeGet_eq_none_of_not_mem_keys
          intro hm
          have hu : u ∈ keysOf s :=
            (List.Sublist.map Prod.fst (List.filter_sublist s)).subset hm
          rw [← hq] at hu
          exact ha hu
        rw [List.filter_cons_of_neg (by simpa using hin), hnone, storeGet,
          if_pos hq]
        simp [hexp]
      · have hout : q.1 ∉ bad := fun hin => hexp (hbq.1 hin)
        rw [List.filter_cons_of_pos (by simpa using hout), storeGet, if_pos hq,
          storeGet, if_pos hq]
        simp [hexp]
    · by_cases hin : q.1 ∈ bad
      · rw [List.filter_cons_of_neg (by simpa using hin), hrest, storeGet,
          if_neg hq]
      · rw [List.filter_cons_of_pos (by simpa using hin), storeGet, if_neg hq,
          hrest, storeGet, if_neg hq]

/-! ### Claim C3: the sweep removes all and only expired entries -/

/-- Claim C3: one `cleanup_old_data` pass at time `now`, on a store with
distinct keys, removes exactly the entries whose age strictly exceeds
`CACHE_EXPIRY` and leaves every younger entry unchanged: afterwards a key
looks up to its old entry when that entry is within the time-to-live and
to nothing when it was expired (or never present). -/
theorem c3_sweep_exact (now : ℚ) (store : List (Nat × Entry))
    (h : (keysOf store).Nodup) (u : Nat) :
    storeGet (cleanup_pass now store) u
      = (storeGet store u).bind
          fun e => if now - e.timestamp > CACHE_EXPIRY then none else some e := by
  rw [cleanup_pass, foldl_erase_eq_filter _ _ h]
  apply storeGet_filter_bind now u _ store h
  intro p hp
  constructor
  · intro hm
    obtain ⟨p', hp', he⟩ := List.mem_map.1 hm
    have hp'mem := (List.mem_filter.1 hp').1
    have hpred := (List.mem_filter.1 hp').2
    have : p' = p := key_inj h hp'mem hp he
    rw [← this]
    simpa using hpred
  · intro hexp
    exact List.mem_map_of_mem Prod.fst
      (List.mem_filter.2 ⟨hp, by simpa using hexp⟩)

/-- Claim C3, witness: a two-entry store at `now = 3601`; the entry stamped
at time 0 (age 3601 > 3600) is removed and the entry stamped at time 3000
(age 601) is kept unchanged. -/
theorem c3_witness :
    (keysOf [(1, (⟨"a".toList, [], 0⟩ : Entry)),
      (2, ⟨"b".toList, [], 3000⟩)]).Nodup ∧
    storeGet (cleanup_pass 3601 [(1, (⟨"a".toList, [], 0⟩ : Entry)),
        (2, ⟨"b".toList, [], 3000⟩)]) 1
      = (storeGet [(1, (⟨"a".toList, [], 0⟩ : Entry)),
          (2, ⟨"b".toList, [], 3000⟩)] 1).bind
          (fun e => if (3601 : ℚ) - e.timestamp > CACHE_EXPIRY then none
            else some e) :=
  ⟨by decide, c3_sweep_exact 3601 _ (by decide) 1⟩

/-! ### Claim C1: no logical expiry on get -/

/-- Claim C1, counterexample: an entry stored at time `T = 0` for user 7;
at time 3601, at/after `T + CACHE_EXPIRY = 3600`, with no intervening
sweep, the quality-selection handler still retrieves the entry and starts
the download instead of answering with the session-expired response:
`button_handler` tests only `user_id in user_data` and never consults the
stored timestamp, so the time of the event cannot change its result. -/
theorem c1_counterexample :
    (3601 : ℚ) - 0 > CACHE_EXPIRY ∧
    button_handler [(7, ⟨"https://www.youtube.com/watch?v=abc".toList,
        [(720, "137".toList)], 0⟩)] 7 "quality_720".toList
      = BRes.startDownload "https://www.youtube.com/watch?v=abc".toList
          "720".toList ∧
    button_handler [(7, ⟨"https://www.youtube.com/watch?v=abc".toList,
        [(720, "137".toList)], 0⟩)] 7 "quality_720".toList
      ≠ BRes.sessionExpired :=
  ⟨by norm_num [CACHE_EXPIRY], by decide, by decide⟩

/-- Claim C1 (amended): retrievability by a quality-selection event is
exactly physical presence in the store, independent of the entry age and
of the current time: the handler answers session-expired precisely when no
entry is physically stored for the user; an expired-but-unswept entry is
still retrieved (only the periodic sweep, `cleanup_pass`, enforces the
time-to-live). -/
theorem c1_presence_amended (store : List (Nat × Entry)) (user : Nat)
    (payload : List Char) (hq : isPrefOf qualityTag payload = true) :
    button_handler store user payload = BRes.sessionExpired
      ↔ storeGet store user = none := by
  have hne : payload ≠ "enter_link".toList := by
    intro he
    rw [he] at hq
    exact absurd hq (by decide)
  rw [button_handler, if_neg hne, if_pos hq]
  cases h : storeGet store user <;> simp

/-- Claim C1, witness: the amended equivalence at a concrete store holding
no entry for user 7. -/
theorem c1_witness :
    isPrefOf qualityTag "quality_720".toList = true ∧
    (button_handler [] 7 "quality_720".toList = BRes.sessionExpired
      ↔ storeGet [] 7 = none) :=
  ⟨by decide, c1_presence_amended [] 7 "quality_720".toList (by decide)⟩

/-! ### Claim C9: selection without a stored entry -/

/-- Claim C9: a quality-selection event by a user with no stored session
entry always yields the session-expired response.  The handler is embedded
as a total function, so this branch returns normally (the quality-string
indexing `query.data.split("_")[1]` that could fault is only evaluated in
the present-entry branch). -/
theorem c9_no_entry_expired (store : List (Nat × Entry)) (user : Nat)
    (payload : List Char) (hq : isPrefOf qualityTag payload = true)
    (habs : storeGet store user = none) :
    button_handler store user payload = BRes.sessionExpired := by
  have hne : payload ≠ "enter_link".toList := by
    intro he
    rw [he] at hq
    exact absurd hq (by decide)
  rw [button_handler, if_neg hne, if_pos hq, habs]

/-- Claim C9, witness: a store holding an entry for user 3 only; user 7
presses a quality button and receives the session-expired response. -/
theorem c9_witness :
    isPrefOf qualityTag "quality_1080".toList = true ∧
    storeGet [(3, (⟨"u".toList, [], 5⟩ : Entry))] 7 = none ∧
    button_handler [(3, (⟨"u".toList, [], 5⟩ : Entry))] 7
      "quality_1080".toList = BRes.sessionExpired :=
  ⟨by decide, by decide,
    c9_no_entry_expired _ 7 _ (by decide) (by decide)⟩

/-! ### Claim C10: stored format tokens never influence the download -/

/-- Claim C10: with a present session entry, the result of a
quality-selection event depends only on the stored URL and the payload:
two stores whose entries for the user carry the same URL but arbitrarily
different formats mappings and timestamps produce identical handler
results — in particular the download is invoked with the same URL and the
same resolution (parsed from the payload), and the stored
height → format-token mapping never reaches `download_video`, whose inputs
are only the URL, the resolution string and the chat query. -/
theorem c10_formats_not_used (s1 s2 : List (Nat × Entry)) (user : Nat)
    (payload : List Char) (e1 e2 : Entry)
    (h1 : storeGet s1 user = some e1) (h2 : storeGet s2 user = some e2)
    (hurl : e1.url = e2.url) :
    button_handler s1 user payload = button_handler s2 user payload := by
  by_cases he : payload = "enter_link".toList
  · rw [button_handler, button_handler, if_pos he, if_pos he]
  · by_cases hq : isPrefOf qualityTag payload = true
    · rw [button_handler, button_handler, if_neg he, if_neg he, if_pos hq,
        if_pos hq, h1, h2]
      simp [hurl]
    · rw [button_handler, button_handler, if_neg he, if_neg he, if_neg hq,
        if_neg hq]

/-- Claim C10, witness: same stored URL, different formats mappings and
timestamps; the handler result for `quality_720` is identical. -/
theorem c10_witness :
    storeGet [(7, (⟨"U".toList, [(720, "137".toList)], 0⟩ : Entry))] 7
      = some (⟨"U".toList, [(720, "137".toList)], 0⟩ : Entry) ∧
    storeGet [(7, (⟨"U".toList, [(1080, "999".toList)], 55⟩ : Entry))] 7
      = some (⟨"U".toList, [(1080, "999".toList)], 55⟩ : Entry) ∧
    button_handler [(7, (⟨"U".toList, [(720, "137".toList)], 0⟩ : Entry))] 7
        "quality_720".toList
      = button_handler [(7, (⟨"U".toList, [(1080, "999".toList)], 55⟩ : Entry))]
          7 "quality_720".toList :=
  ⟨by decide, by decide,
    c10_formats_not_used _ _ 7 "quality_720".toList
      ⟨"U".toList, [(720, "137".toList)], 0⟩
      ⟨"U".toList, [(1080, "999".toList)], 55⟩
      (by decide) (by decide) (by decide)⟩

/-! ### Decimal rendering (Python `str(n)` for a non-negative int, used by
the f-strings building file names and messages) -/

/-- The character for decimal digit `d` (`'0'`..`'9'` for `d < 10`). -/
def digitChar (d : Nat) : Char := Char.ofNat (48 + d)

/-- The decimal digits of `n`, least significant first. -/
def natRevDigits (n : Nat) : List Char :=
  if n < 10 then [digitChar n]
  else digitChar (n % 10) :: natRevDigits (n / 10)
termination_by n
decreasing_by exact Nat.div_lt_self (by omega) (by omega)

/-- Python `str(n)` for a natural number: most significant digit first. -/
def natStr (n : Nat) : List Char := (natRevDigits n).reverse

/-- Value of a least-significant-first digit string; inverse of
`natRevDigits`, used to prove injectivity of `natStr`. -/
def revVal : List Char → Nat
  | [] => 0
  | c :: r => (c.toNat - 48) + 10 * revVal r

theorem digitChar_toNat : ∀ d, d < 10 → (digitChar d).toNat = 48 + d := by
  decide

theorem digitChar_benign : ∀ d, d < 10 →
    digitChar d ≠ '_' ∧ digitChar d ≠ '.' := by decide

theorem revVal_natRevDigits (n : Nat) : revVal (natRevDigits n) = n := by
  induction n using Nat.strong_induction_on with
  | _ n ih =>
    rw [natRevDigits]
    split
    next h =>
      rw [revVal, revVal, digitChar_toNat n h]
      omega
    next h =>
      have hlt : n / 10 < n := Nat.div_lt_self (by omega) (by omega)
      have hmod : n % 10 < 10 := Nat.mod_lt n (by omega)
      rw [revVal, digitChar_toNat _ hmod, ih _ hlt]
      omega

theorem natStr_inj {a b : Nat} (h : natStr a = natStr b) : a = b := by
  have h1 : natRevDigits a = natRevDigits b := by
    have h2 := congrArg List.reverse h
    simpa [natStr] using h2
  have h3 := congrArg revVal h1
  rwa [revVal_natRevDigits, revVal_natRevDigits] at h3

theorem mem_natRevDigits {c : Char} (n : Nat) (hm : c ∈ natRevDigits n) :
    ∃ d, d < 10 ∧ c = digitChar d := by
  induction n using Nat.strong_induction_on with
  | _ n ih =>
    rw [natRevDigits] at hm
    split at hm
    next h =>
      exact ⟨n, h, (List.mem_singleton.1 hm)⟩
    next h =>
      rcases List.mem_cons.1 hm with hc | hc
      · exact ⟨n % 10, Nat.mod_lt n (by omega), hc⟩
      · exact ih (n / 10) (Nat.div_lt_self (by omega) (by omega)) hc

theorem natStr_benign {c : Char} {n : Nat} (hm : c ∈ natStr n) :
    c ≠ '_' ∧ c ≠ '.' := by
  obtain ⟨d, hd, he⟩ := mem_natRevDigits n (List.mem_reverse.1 hm)
  exact he ▸ digitChar_benign d hd

/-- Splitting an equality of strings around a separator character absent
from both left parts: the parts on each side of the separator agree. -/
theorem sepSplitList {sep : Char} : ∀ {x1 x2 y1 y2 : List Char},
    sep ∉ x1 → sep ∉ x2 → x1 ++ sep :: y1 = x2 ++ sep :: y2 →
    x1 = x2 ∧ y1 = y2
  | [], [], y1, y2, _, _, he => ⟨rfl, (List.cons.inj he).2⟩
  | [], c :: x2, y1, y2, _, h2, he => by
    exfalso
    have hc : sep = c := (List.cons.inj he).1
    exact h2 (hc ▸ List.mem_cons_self c x2)
  | a :: x1, [], y1, y2, h1, _, he => by
    exfalso
    have hc : a = sep := (List.cons.inj he).1
    exact h1 (hc ▸ List.mem_cons_self a x1)
  | a :: x1, b :: x2, y1, y2, h1, h2, he => by
    have hab : a = b := (List.cons.inj he).1
    have hrest : x1 ++ sep :: y1 = x2 ++ sep :: y2 := (List.cons.inj he).2
    have h1t : sep ∉ x1 := fun hm => h1 (List.mem_cons_of_mem a hm)
    have h2t : sep ∉ x2 := fun hm => h2 (List.mem_cons_of_mem b hm)
    obtain ⟨hx, hy⟩ := sepSplitList h1t h2t hrest
    exact ⟨by rw [hab, hx], hy⟩

/-! ### Download artifact name (`download_video`, src/main.py line 138) -/

/-- Source `file_path = f"download_{user_id}_{int(time.time())}.mp4"`.
The call time is a rational; Python `int()` truncates, which for the
non-negative values of `time.time()` is the floor. -/
def file_path (user : Nat) (t : ℚ) : List Char :=
  "download_".toList ++
    (natStr user ++ ('_' :: (natStr (Int.floor t).toNat ++ ".mp4".toList)))

/-! ### Claim C8: artifact-name collisions -/

/-- Claim C8, counterexample: two distinct concurrent invocations — same
user 5, distinct call times 100.2 and 100.6 seconds — produce the same
artifact name, because the name only uses the integer part of the time. -/
theorem c8_counterexample :
    ¬((5 : Nat), (501 / 5 : ℚ)) = ((5 : Nat), (503 / 5 : ℚ)) ∧
    file_path 5 (501 / 5) = file_path 5 (503 / 5) := by
  have h1 : Int.floor (501 / 5 : ℚ) = 100 := by
    rw [Int.floor_eq_iff]
    norm_num
  have h2 : Int.floor (503 / 5 : ℚ) = 100 := by
    rw [Int.floor_eq_iff]
    norm_num
  constructor
  · intro he
    have : (501 / 5 : ℚ) = 503 / 5 := congrArg Prod.snd he
    norm_num at this
  · rw [file_path, file_path, h1, h2]

/-- Claim C8 (amended): artifact names are distinct whenever the two
invocations differ in user id or in the integer second of their creation
time; two invocations for the same user within the same integer second
collide. -/
theorem c8_names_distinct_amended (u1 u2 : Nat) (t1 t2 : ℚ)
    (h : u1 ≠ u2 ∨ (Int.floor t1).toNat ≠ (Int.floor t2).toNat) :
    file_path u1 t1 ≠ file_path u2 t2 := by
  intro he
  rw [file_path, file_path] at he
  have he1 := List.append_right_injective "download_".toList he
  have hus : natStr u1 = natStr u2 ∧
      natStr (Int.floor t1).toNat ++ ".mp4".toList
        = natStr (Int.floor t2).toNat ++ ".mp4".toList :=
    sepSplitList (fun hm => (natStr_benign hm).1 rfl)
      (fun hm => (natStr_benign hm).1 rfl) he1
  have hts : natStr (Int.floor t1).toNat = natStr (Int.floor t2).toNat := by
    have h2 := hus.2
    rw [show (".mp4".toList : List Char) = '.' :: "mp4".toList from rfl] at h2
    exact (sepSplitList (fun hm => (natStr_benign hm).2 rfl)
      (fun hm => (natStr_benign hm).2 rfl) h2).1
  rcases h with h | h
  · exact h (natStr_inj hus.1)
  · exact h (natStr_inj hts)

/-- Claim C8, witness: different users at the same time get distinct
artifact names. -/
theorem c8_witness :
    (1 : Nat) ≠ 2 ∧ file_path 1 100 ≠ file_path 2 100 :=
  ⟨by decide, c8_names_distinct_amended 1 2 100 100 (Or.inl (by decide))⟩

/-! ### Download operation (`download_video`, src/main.py lines 136-187)

The network side (`yt_dlp` and the chat upload) is an external
collaborator; its behaviour in one invocation is an oracle `DlEnv`
(does `ydl.download` raise, does an output file exist afterwards, its
size, does the upload raise).  The handler's own control flow —
the two internally raised exceptions, the `except` reply and the
`finally` cleanup — is embedded faithfully below. -/

/-- The `format` selector string built from the chosen resolution
(src/main.py line 142). -/
def ydl_format (resolution : List Char) : List Char :=
  "bestvideo[height<=".toList ++ resolution
    ++ "][ext=mp4]+bestaudio[ext=m4a]/best[ext=mp4]".toList

/-- Two-digit zero-padded rendering of `n < 100`. -/
def pad2 (n : Nat) : List Char := if n < 10 then '0' :: natStr n else natStr n

/-- Rendering of `file_size/1024/1024` with two decimal places, as in the
source f-string `f"({file_size/1024/1024:.2f}MB ...)"`.  The float division
and `:.2f` formatting are modelled as the rational `bytes / 1048576`
rounded to centi-megabytes and printed with two decimals. -/
def mbText (bytes : Nat) : List Char :=
  natStr ((bytes * 100 + 524288) / 1048576 / 100) ++
    ('.' :: pad2 ((bytes * 100 + 524288) / 1048576 % 100))

/-- The exception raised (or caught) inside the `try` block of
`download_video`: the two internally raised ones and any external
(resolver/transport) exception, carried with its `str(e)` text. -/
inductive PyExc where
  | fileNotFound
  | tooLarge (sizeBytes : Nat)
  | external (txt : List Char)
deriving DecidableEq

/-- Python `str(e)` for the exceptions of `download_video`: the crafted
messages of the two internal raises (src/main.py lines 160 and 164) and
the raw text of an external exception. -/
def excText : PyExc → List Char
  | .fileNotFound => "Download failed - no output file".toList
  | .tooLarge n =>
    "File too large (".toList ++ mbText n ++ "MB > 2000MB)".toList
  | .external t => t

/-- A chat message sent by `download_video` (the `reply_video` upload is
represented by the marker `videoSent`). -/
inductive Msg where
  | uploadStart
  | videoSent
  | doneOffer
  | downloadFailed (e : PyExc)
deriving DecidableEq

/-- The literal text of each message per the source f-strings. -/
def renderMsg : Msg → List Char
  | .uploadStart => "✅ Download complete! Uploading now...".toList
  | .videoSent => "[video]".toList
  | .doneOffer => "🎉 Done! Want to download another video?".toList
  | .downloadFailed e => "❌ Download failed: ".toList ++ excText e

/-- Oracle for one `download_video` invocation: behaviour of the external
collaborators inside the `try` block. -/
structure DlEnv where
  dlRaises : Option (List Char)
  produced : Bool
  size : Nat
  uploadRaises : Option (List Char)
deriving DecidableEq

/-- The request issued to the resolver: URL, format selector and output
template (the `ydl_opts` fields that vary per invocation). -/
structure DlRequest where
  url : List Char
  fmt : List Char
  outtmpl : List Char
deriving DecidableEq

/-- Result of one `download_video` invocation: the request it issued, the
messages sent, and whether the artifact file is still on disk at exit. -/
structure DlResult where
  request : DlRequest
  msgs : List Msg
  artifactOnDisk : Bool
deriving DecidableEq

/-- The `finally` block (src/main.py lines 185-187):
`if os.path.exists(file_path): os.remove(file_path)`. -/
def finallyCleanup (r : DlResult) : DlResult :=
  ⟨r.request, r.msgs, if r.artifactOnDisk then false else r.artifactOnDisk⟩

/-- Source `download_video(url, resolution, query)` with its call time and
chat id, under oracle `env`.  Mirrors the source control flow: run
`ydl.download`; raise `FileNotFoundError` when no output file exists;
raise `ValueError` with the measured size when it exceeds
`MAX_TELEGRAM_FILE_SIZE`; otherwise announce, upload and offer another
download; every raised exception is caught by the `except` clause which
replies `f"❌ Download failed: {str(e)}"`; the `finally` clause always
runs last. -/
def download_video (url resolution : List Char) (user : Nat) (t : ℚ)
    (env : DlEnv) : DlResult :=
  let req : DlRequest := ⟨url, ydl_format resolution, file_path user t⟩
  finallyCleanup <|
    match env.dlRaises with
    | some txt => ⟨req, [Msg.downloadFailed (.external txt)], env.produced⟩
    | none =>
      if env.produced = false then
        ⟨req, [Msg.downloadFailed .fileNotFound], false⟩
      else if env.size > MAX_TELEGRAM_FILE_SIZE then
        ⟨req, [Msg.downloadFailed (.tooLarge env.size)], true⟩
      else
        match env.uploadRaises with
        | some txt =>
          ⟨req, [Msg.uploadStart, Msg.downloadFailed (.external txt)], true⟩
        | none => ⟨req, [Msg.uploadStart, Msg.videoSent, Msg.doneOffer], true⟩

/-- The exception caught by the `except` clause of `download_video` under
oracle `env` (`none` on the success path), read off the same control flow
as `download_video`. -/
def dlRaisedExc (env : DlEnv) : Option PyExc :=
  match env.dlRaises with
  | some txt => some (.external txt)
  | none =>
    if env.produced = false then some .fileNotFound
    else if env.size > MAX_TELEGRAM_FILE_SIZE then some (.tooLarge env.size)
    else
      match env.uploadRaises with
      | some txt => some (.external txt)
      | none => none

/-! ### Claim C2: the artifact never survives the operation -/

theorem finallyCleanup_artifact (r : DlResult) :
    (finallyCleanup r).artifactOnDisk = false := by
  rw [finallyCleanup]
  cases r.artifactOnDisk <;> rfl

/-- Claim C2: on every exit path of `download_video` — success, no output
file, size-limit failure, resolver (download) error, upload failure — the
artifact file is absent when the operation terminates: the `finally`
clause removes it when it exists. -/
theorem c2_no_artifact_leak (url resolution : List Char) (user : Nat)
    (t : ℚ) (env : DlEnv) :
    (download_video url resolution user t env).artifactOnDisk = false := by
  rw [download_video]
  exact finallyCleanup_artifact _

/-! ### Claim C6: oversized artifact reporting -/

/-- Claim C6: when the produced artifact exceeds
`MAX_TELEGRAM_FILE_SIZE`, the only message sent is the failure reply
carrying the measured size, that reply renders the size in megabytes
(bytes / 1048576, the fixed unit for every invocation), and no artifact
file remains on disk. -/
theorem c6_oversize_reported (url resolution : List Char) (user : Nat)
    (t : ℚ) (env : DlEnv) (h1 : env.dlRaises = none)
    (h2 : env.produced = true) (h3 : env.size > MAX_TELEGRAM_FILE_SIZE) :
    (download_video url resolution user t env).msgs
      = [Msg.downloadFailed (.tooLarge env.size)] ∧
    (download_video url resolution user t env).artifactOnDisk = false ∧
    renderMsg (Msg.downloadFailed (.tooLarge env.size))
      = "❌ Download failed: File too large (".toList
        ++ mbText env.size ++ "MB > 2000MB)".toList := by
  refine ⟨?_, ?_, ?_⟩
  · simp [download_video, finallyCleanup, h1, h2, h3]
  · rw [download_video]
    exact finallyCleanup_artifact _
  · rw [renderMsg, excText, ← List.append_assoc, ← List.append_assoc]
    rw [show ("❌ Download failed: ".toList ++ "File too large (".toList
          : List Char)
        = "❌ Download failed: File too large (".toList from by decide]

/-- Claim C6, witness: a produced artifact of 2097152001 bytes (one byte
over the cap) yields exactly the too-large failure reply carrying that
size. -/
theorem c6_witness :
    ((⟨none, true, 2097152001, none⟩ : DlEnv).dlRaises = none ∧
      (⟨none, true, 2097152001, none⟩ : DlEnv).produced = true ∧
      (⟨none, true, 2097152001, none⟩ : DlEnv).size
        > MAX_TELEGRAM_FILE_SIZE) ∧
    (download_video "u".toList "720".toList 7 0
        ⟨none, true, 2097152001, none⟩).msgs
      = [Msg.downloadFailed (.tooLarge 2097152001)] :=
  ⟨⟨rfl, rfl, by decide⟩,
    (c6_oversize_reported "u".toList "720".toList 7 0
      ⟨none, true, 2097152001, none⟩ rfl rfl (by decide)).1⟩

/-! ### Claim C7: failure messages and raw exception text -/

/-- Claim C7, counterexample: when `ydl.download` raises an external
exception whose text is `HTTP Error 403: Forbidden`, the chat reply is
`❌ Download failed: HTTP Error 403: Forbidden` — the raw internal
exception text appears verbatim in the message sent to the user
(src/main.py line 184 interpolates `str(e)`). -/
theorem c7_counterexample :
    (download_video "u".toList "720".toList 7 0
        ⟨some "HTTP Error 403: Forbidden".toList, false, 0, none⟩).msgs
      = [Msg.downloadFailed (.external "HTTP Error 403: Forbidden".toList)] ∧
    containsSub "HTTP Error 403: Forbidden".toList
      (renderMsg (Msg.downloadFailed
        (.external "HTTP Error 403: Forbidden".toList))) = true := by
  exact ⟨rfl, by decide⟩

/-- Claim C7 (amended): every failure path replies with exactly one chat
message of the fixed shape `❌ Download failed: ` followed by `str(e)` for
the exception `e` caught on that path — a crafted human-readable text for
the two internally raised failures (no output file, file too large), but
the verbatim raw text for any other resolver/transport exception. -/
theorem c7_failure_message_amended (url resolution : List Char) (user : Nat)
    (t : ℚ) (env : DlEnv) (e : PyExc) :
    (Msg.downloadFailed e ∈ (download_video url resolution user t env).msgs
      ↔ dlRaisedExc env = some e) ∧
    renderMsg (Msg.downloadFailed e)
      = "❌ Download failed: ".toList ++ excText e := by
  refine ⟨?_, rfl⟩
  obtain ⟨dl, prod, size, up⟩ := env
  rw [download_video, dlRaisedExc]
  cases dl with
  | some txt => simp [finallyCleanup, eq_comm]
  | none =>
    cases prod with
    | false => simp [finallyCleanup, eq_comm]
    | true =>
      by_cases hs : size > MAX_TELEGRAM_FILE_SIZE
      · simp [finallyCleanup, hs, eq_comm]
      · cases up with
        | some txt => simp [finallyCleanup, hs, eq_comm]
        | none => simp [finallyCleanup, hs]

/-! ### Format discovery (`get_video_qualities`, src/main.py lines 116-134)
and the quality keyboard (`handle_message`, lines 94-101) -/

/-- One format record returned by the resolver: the fields read by the
dict comprehension of `get_video_qualities` (`height`, `vcodec`,
`format_id`; absent keys are `none`). -/
structure RawFormat where
  height : Option Nat
  vcodec : Option (List Char)
  format_id : List Char

/-- Python dict insertion with overwrite: a later binding for an existing
key replaces its value in place, otherwise the binding is appended. -/
def upsert (d : List (Nat × List Char)) (k : Nat) (v : List Char) :
    List (Nat × List Char) :=
  if d.any fun p => decide (p.1 = k) then
    d.map fun p => if p.1 = k then (k, v) else p
  else d ++ [(k, v)]

/-- The keys of a formats dictionary. -/
def fmtKeys (d : List (Nat × List Char)) : List Nat := d.map Prod.fst

/-- One step of the dict comprehension of `get_video_qualities`: the record
contributes iff `f.get("height")` is truthy (present and nonzero) and
`f.get("vcodec") != "none"` (note a missing `vcodec` passes). -/
def qualStep (d : List (Nat × List Char)) (f : RawFormat) :
    List (Nat × List Char) :=
  match f.height with
  | some h =>
    if h ≠ 0 ∧ f.vcodec ≠ some "none".toList then upsert d h f.format_id
    else d
  | none => d

/-- Source `get_video_qualities` on a successful extraction: the mapping
`str(f["height"]) : f["format_id"]` over the usable format records (keys
modelled as the heights themselves, `str` being injective on them). -/
def get_video_qualities (fs : List RawFormat) : List (Nat × List Char) :=
  fs.foldl qualStep []

/-- Source `handle_message` line 96:
`sorted([int(r) for r in formats.keys()], reverse=True)[:4]`. -/
def available_res (formats : List (Nat × List Char)) : List Nat :=
  ((fmtKeys formats).insertionSort (· ≥ ·)).take 4

/-- The inline keyboard built from `available_res`: one row per
resolution, labelled `f"{res}p"` with payload `f"quality_{res}"`. -/
def qualityKeyboard (formats : List (Nat × List Char)) :
    List (List (List Char × List Char)) :=
  (available_res formats).map fun res =>
    [(natStr res ++ "p".toList, "quality_".toList ++ natStr res)]

theorem fmtKeys_upsert (d : List (Nat × List Char)) (k : Nat)
    (v : List Char) :
    fmtKeys (upsert d k v)
      = if k ∈ fmtKeys d then fmtKeys d else fmtKeys d ++ [k] := by
  by_cases h : k ∈ fmtKeys d
  · have hany : (d.any fun p => decide (p.1 = k)) = true := by
      obtain ⟨p, hp, he⟩ := List.mem_map.1 h
      exact List.any_eq_true.2 ⟨p, hp, by simp [he]⟩
    rw [upsert, if_pos hany, if_pos h, fmtKeys, fmtKeys, List.map_map]
    apply List.map_congr_left
    intro p _
    by_cases hp : p.1 = k
    · simp [hp]
    · simp [hp]
  · have hany : (d.any fun p => decide (p.1 = k)) = false := by
      rw [List.any_eq_false]
      intro p hp
      simp only [decide_eq_true_eq]
      intro he
      exact h (he ▸ List.mem_map_of_mem Prod.fst hp)
    rw [upsert, if_neg (by simp [hany]), if_neg h, fmtKeys, fmtKeys,
      List.map_append]
    rfl

theorem fmtKeys_upsert_nodup {d : List (Nat × List Char)} {k : Nat}
    {v : List Char} (h : (fmtKeys d).Nodup) :
    (fmtKeys (upsert d k v)).Nodup := by
  rw [fmtKeys_upsert]
  by_cases hk : k ∈ fmtKeys d
  · rwa [if_pos hk]
  · rw [if_neg hk]
    exact List.nodup_append.2
      ⟨h, List.nodup_singleton k,
        fun a ha hm => hk ((List.mem_singleton.1 hm) ▸ ha)⟩

theorem qualStep_nodup {d : List (Nat × List Char)} {f : RawFormat}
    (h : (fmtKeys d).Nodup) : (fmtKeys (qualStep d f)).Nodup := by
  cases hh : f.height with
  | none =>
    rw [qualStep, hh]
    exact h
  | some hgt =>
    rw [qualStep, hh]
    show (fmtKeys (if hgt ≠ 0 ∧ f.vcodec ≠ some "none".toList
        then upsert d hgt f.format_id else d)).Nodup
    by_cases hc : hgt ≠ 0 ∧ f.vcodec ≠ some "none".toList
    · rw [if_pos hc]
      exact fmtKeys_upsert_nodup h
    · rwa [if_neg hc]

theorem foldl_qualStep_nodup :
    ∀ (fs : List RawFormat) (d : List (Nat × List Char)),
    (fmtKeys d).Nodup → (fmtKeys (fs.foldl qualStep d)).Nodup
  | [], _, h => h
  | f :: fs, d, h => by
    rw [List.foldl_cons]
    exact foldl_qualStep_nodup fs (qualStep d f) (qualStep_nodup h)

theorem get_video_qualities_keys_nodup (fs : List RawFormat) :
    (fmtKeys (get_video_qualities fs)).Nodup :=
  foldl_qualStep_nodup fs [] List.Pairwise.nil

theorem top4_spec (l : List Nat) (nd : l.Nodup) :
    ((l.insertionSort (· ≥ ·)).take 4).Sorted (· > ·) ∧
    ((l.insertionSort (· ≥ ·)).take 4).length = min 4 l.length ∧
    (∀ x, x ∈ (l.insertionSort (· ≥ ·)).take 4 → x ∈ l) ∧
    (∀ x, x ∈ l → x ∉ (l.insertionSort (· ≥ ·)).take 4 →
      ∀ y, y ∈ (l.insertionSort (· ≥ ·)).take 4 → x < y) := by
  have perm := List.perm_insertionSort (· ≥ ·) l
  have nds : (l.insertionSort (· ≥ ·)).Nodup := perm.nodup_iff.2 nd
  have sorted : (l.insertionSort (· ≥ ·)).Sorted (· ≥ ·) :=
    List.sorted_insertionSort (· ≥ ·) l
  refine ⟨?_, ?_, ?_, ?_⟩
  · have p1 := List.Pairwise.sublist (List.take_sublist 4 _) sorted
    have p2 : ((l.insertionSort (· ≥ ·)).take 4).Nodup :=
      List.Nodup.sublist (List.take_sublist 4 _) nds
    exact (p1.and p2).imp fun h => lt_of_le_of_ne h.1 (Ne.symm h.2)
  · rw [List.length_take, perm.length_eq]
  · intro x hx
    exact perm.subset (List.take_subset 4 _ hx)
  · intro x hx hnx y hy
    have hxs : x ∈ l.insertionSort (· ≥ ·) := perm.symm.subset hx
    have hsplit := List.take_append_drop 4 (l.insertionSort (· ≥ ·))
    have hxtd : x ∈ (l.insertionSort (· ≥ ·)).take 4
        ++ (l.insertionSort (· ≥ ·)).drop 4 := by
      rw [hsplit]
      exact hxs
    have hxd : x ∈ (l.insertionSort (· ≥ ·)).drop 4 := by
      rcases List.mem_append.1 hxtd with h | h
      · exact absurd h hnx
      · exact h
    have hpw := (List.pairwise_append.1
      (show ((l.insertionSort (· ≥ ·)).take 4
          ++ (l.insertionSort (· ≥ ·)).drop 4).Pairwise (· ≥ ·) by
        rw [hsplit]; exact sorted)).2.2
    exact lt_of_le_of_ne (hpw y hy x hxd) fun he => hnx (he ▸ hy)

/-- The example of the spec scenario: resolver reports usable heights
{144, 360, 480, 720, 1080} plus records the comprehension must skip
(missing height, zero height, `vcodec == "none"`). -/
def exampleFormats : List RawFormat :=
  [⟨some 144, some "avc1".toList, "160".toList⟩,
   ⟨some 360, some "avc1".toList, "134".toList⟩,
   ⟨some 480, some "avc1".toList, "135".toList⟩,
   ⟨some 720, some "avc1".toList, "136".toList⟩,
   ⟨some 1080, some "avc1".toList, "137".toList⟩,
   ⟨none, some "avc1".toList, "139".toList⟩,
   ⟨some 0, some "avc1".toList, "xx".toList⟩,
   ⟨some 2160, some "none".toList, "999".toList⟩]

/-! ### Claim C5: top-4 distinct resolutions, highest first -/

/-- Claim C5: for every successful discovery, the offered quality options
are the top 4 (or fewer when fewer exist) distinct resolution heights,
highest first: the list is strictly descending, has length
`min 4 (number of distinct heights)`, contains only discovered heights,
and every discovered height left out is smaller than every height offered;
on the spec example {144, 360, 480, 720, 1080} the options are
1080, 720, 480, 360. -/
theorem c5_top4_descending (fs : List RawFormat) :
    (available_res (get_video_qualities fs)).Sorted (· > ·) ∧
    (available_res (get_video_qualities fs)).length
      = min 4 (fmtKeys (get_video_qualities fs)).length ∧
    (∀ x, x ∈ available_res (get_video_qualities fs) →
      x ∈ fmtKeys (get_video_qualities fs)) ∧
    (∀ x, x ∈ fmtKeys (get_video_qualities fs) →
      x ∉ available_res (get_video_qualities fs) →
      ∀ y, y ∈ available_res (get_video_qualities fs) → x < y) ∧
    available_res (get_video_qualities exampleFormats)
      = [1080, 720, 480, 360] := by
  obtain ⟨h1, h2, h3, h4⟩ :=
    top4_spec (fmtKeys (get_video_qualities fs))
      (get_video_qualities_keys_nodup fs)
  exact ⟨h1, h2, h3, h4, by decide⟩

/-- Claim C5, witness: on the spec example, 144 is a discovered height
left out of the offered options, and it is smaller than the offered
1080. -/
theorem c5_witness :
    144 ∈ fmtKeys (get_video_qualities exampleFormats) ∧
    144 ∉ available_res (get_video_qualities exampleFormats) ∧
    1080 ∈ available_res (get_video_qualities exampleFormats) ∧
    (144 : Nat) < 1080 :=
  ⟨by decide, by decide, by decide,
    (c5_top4_descending exampleFormats).2.2.2.1 144 (by decide) (by decide)
      1080 (by decide)⟩

end Mine
